import Mathlib

/-!
Verification of the drive `config` package (config/config.go): path probing
(`LeastNonExistantRoot`), context initialization (`Initialize`), the index
store (`ReadIndices` / `WriteIndices`), and the mount-overlay construction
and teardown (`MountPoints` / `MountPoint.Unmount`).

Modelling conventions:
* Go strings are modelled as `List Char` (`Path`); the package runs on the
  Unix separator `'/'`.
* The filesystem is an explicit state: an association list from paths to
  entries (directory, regular file with typed payload, or symbolic link),
  looked up after trimming trailing separators (mirroring the kernel's
  treatment of `"/a"` and `"/a/"` as the same object), together with lists
  of paths at which `stat`, `symlink` or `mkdir` are declared to fail with
  an error unrelated to existence (modelling EIO/EACCES-style failures, so
  the source's error branches are representable).
* `os.Stat` is modelled without following symbolic links (link resolution
  is an explicit non-goal of the module); `json` marshalling is modelled by
  storing typed payloads in file entries (the spec treats serialization as
  an external collaborator with no algorithmic content).
* `path.Join` / `filepath.Join` are modelled as plain concatenation with a
  separator (`joinPath`); Go's `Clean` normalization of the joined result
  (redundant separators, dot segments) is not modelled — no property below
  depends on it.
* Recursions that walk to parent directories decrease the string length;
  they are written with an explicit fuel of `length + 1` so that every
  definition evaluates by kernel reduction, and each gets a proved
  fuel-free unfolding equation used by all proofs.
-/

namespace Drive

/-- Paths (Go strings) as lists of characters. -/
abbrev Path := List Char

/-- Package-level `PathSeparator` constant, on Unix `'/'`. -/
def PathSeparator : Char := '/'

/-- Package-level `GDDirSuffix` constant, the marker-directory name `".gd"`. -/
def GDDirSuffix : Path := ['.', 'g', 'd']

/-- Model of `strings.TrimRight p PathSeparator`: drop all trailing separators. -/
def trimRightSep (p : Path) : Path :=
  (p.reverse.dropWhile fun c => c == PathSeparator).reverse

/-- Directory component of `filepath.Split p`: everything up to and including
the final separator, empty when there is no separator. -/
def splitDir (p : Path) : Path :=
  (p.reverse.dropWhile fun c => c != PathSeparator).reverse

/-- One step of the upward directory walk used by `LeastNonExistantRoot` and
by `MkdirAll`: the directory component of `filepath.Split` applied after
trimming trailing separators. -/
def parentPath (p : Path) : Path :=
  splitDir (trimRightSep p)

/-- Normalization applied by the filesystem model when resolving a path:
trailing separators are irrelevant, and a path consisting only of
separators denotes the root directory. -/
def normPath (p : Path) : Path :=
  let t := trimRightSep p
  if t = [] then (if p = [] then [] else [PathSeparator]) else t

/-- Model of `filepath.Base`: empty path gives `"."`, an all-separator path
gives the separator, otherwise the part after the final separator once
trailing separators are trimmed. -/
def filepathBase (p : Path) : Path :=
  if p = [] then ['.']
  else
    let t := trimRightSep p
    if t = [] then [PathSeparator]
    else (t.reverse.takeWhile fun c => c != PathSeparator).reverse

/-- Model of `path.Join` / `filepath.Join` on two components: concatenation
with a separator (Go's `Clean` normalization is not modelled). -/
def joinPath (a b : Path) : Path :=
  if a = [] then b else if b = [] then a else a ++ PathSeparator :: b

/-- One cached remote-file record (type `Index` of the source). -/
structure Index where
  FileId : Path
  Etag : Path
  Md5Checksum : Path
  MimeType : Path
  ModTime : Int
  Version : Int
  Remote : Bool
deriving DecidableEq

/-- The persisted index collection (type `IndexFile` of the source). -/
structure IndexFile where
  Name : Path
  Index : List Index
deriving DecidableEq

/-- Typed payload of a regular file in the filesystem model; marshalling of
the two persisted records is treated as an external collaborator, so a file
holds the record itself (or an untyped blob). -/
inductive FileData
  | creds (clientId clientSecret refreshToken : Path)
  | index (f : IndexFile)
  | blob
deriving DecidableEq

/-- A filesystem entry: directory, regular file, or symbolic link. -/
inductive Entry
  | dir
  | file (d : FileData)
  | symlink (target : Path)
deriving DecidableEq

/-- True for directory entries (`FileInfo.IsDir`). -/
def Entry.isDir : Entry → Bool
  | .dir => true
  | _ => false

/-- Classification of a failing `os.Stat`: the error may satisfy
`os.IsNotExist`, `os.IsExist`, or neither (EIO/EACCES-style failures). -/
inductive StatErr
  | notExist
  | exist
  | other
deriving DecidableEq

/-- Result of `os.Stat` in the model. -/
inductive StatRes
  | ok (e : Entry)
  | err (se : StatErr)
deriving DecidableEq

/-- True when the stat returned a `FileInfo` (Go: `err == nil`). -/
def StatRes.isOk : StatRes → Bool
  | .ok _ => true
  | .err _ => false

/-- The filesystem state: entries keyed by normalized path, plus the paths
at which `stat` fails with a declared non-`notExist` error, symlink
creation fails with an error unrelated to existence, and `MkdirAll` fails. -/
structure FS where
  entries : List (Path × Entry)
  statErrs : List (Path × StatErr)
  linkErrPaths : List Path
  mkdirErrPaths : List Path
deriving DecidableEq

/-- Model of `os.Stat`: an entry at the (normalized) path yields its
`FileInfo`; otherwise the declared stat error, defaulting to `notExist`. -/
def FS.statR (fs : FS) (p : Path) : StatRes :=
  match fs.entries.lookup (normPath p) with
  | some e => .ok e
  | none => .err ((fs.statErrs.lookup (normPath p)).getD .notExist)

/-- Insert an entry at the (normalized) path. -/
def FS.addEntry (fs : FS) (p : Path) (e : Entry) : FS :=
  { fs with entries := (normPath p, e) :: fs.entries }

/-- Result of `os.Symlink` in the model. -/
inductive LinkRes
  | ok (fs : FS)
  | errExist
  | errOther
deriving DecidableEq

/-- Model of `os.Symlink target linkPath`: fails with an `os.IsExist` error
when an entry is already present at the link path, with another error when
the filesystem declares one there, and otherwise creates the link. -/
def FS.symlink (fs : FS) (target linkPath : Path) : LinkRes :=
  match fs.entries.lookup (normPath linkPath) with
  | some _ => .errExist
  | none =>
    if linkPath ∈ fs.linkErrPaths then .errOther
    else .ok (fs.addEntry linkPath (.symlink target))

/-- True when the path-prefix relation of directory trees holds: `q` is `p`
itself or lies strictly below `p`. -/
def underPath (p q : Path) : Bool :=
  p == q || List.isPrefixOf (p ++ [PathSeparator]) q

/-- Model of `os.RemoveAll p`: delete every entry at or below `p`; removing
a missing path is not an error (`RemoveAll` never fails in the model). -/
def FS.removeAll (fs : FS) (p : Path) : FS :=
  { fs with entries := fs.entries.filter fun kv => !underPath (normPath p) kv.1 }

/-- Fuelled model of `os.MkdirAll`: an existing directory is kept, an
existing non-directory is an error, and a missing path is created after its
parent chain; `mkdirErrPaths` declares unrelated failures. The original
filesystem is consulted for existence, and created directories are added on
the way out, exactly as the recursive Go implementation does. -/
def mkdirAllF (fs : FS) : Nat → Path → Option FS
  | 0, _ => none
  | fuel + 1, p =>
    match fs.entries.lookup (normPath p) with
    | some .dir => some fs
    | some _ => none
    | none =>
      if p ∈ fs.mkdirErrPaths then none
      else if p = [] then none
      else if parentPath p = [] then some (fs.addEntry p .dir)
      else
        match mkdirAllF fs fuel (parentPath p) with
        | none => none
        | some fs2 => some (fs2.addEntry p .dir)

/-- Model of `os.MkdirAll`, with enough fuel for the full parent walk. -/
def FS.mkdirAll (fs : FS) (p : Path) : Option FS :=
  mkdirAllF fs (p.length + 1) p

/-- One mount point (type `MountPoint` of the source). -/
structure MountPoint where
  CanClean : Bool
  Name : Path
  AbsPath : Path
  MountPath : Path
deriving DecidableEq

/-- Aggregate result of one `MountPoints` call (type `Mount` of the source). -/
structure Mount where
  CreatedMountDir : Path
  ShortestMountRoot : Path
  Points : List MountPoint
deriving DecidableEq

/-- Source `mounted`: the approximation in the code simply returns `CanClean`. -/
def MountPoint.mounted (mpt : MountPoint) : Bool :=
  mpt.CanClean

/-- Source `MountPoint.Unmount`: remove the link path recursively when
`mounted`, otherwise do nothing; returns the error (always absent in the
model, as `os.RemoveAll` ignores missing paths) with the new state. -/
def MountPoint.Unmount (mpt : MountPoint) (fs : FS) : Option Unit × FS :=
  if mpt.mounted then (none, fs.removeAll mpt.MountPath) else (none, fs)

/-- The working context (type `Context` of the source; `AbsPath` is the
root, the other three fields are the stored credential triple). -/
structure Context where
  ClientId : Path
  ClientSecret : Path
  RefreshToken : Path
  AbsPath : Path
deriving DecidableEq

/-- Source `gdPath`: the marker directory `absPath/.gd`. -/
def gdPath (absPath : Path) : Path :=
  joinPath absPath GDDirSuffix

/-- Source `credentialsPath`: `absPath/.gd/credentials.json`. -/
def credentialsPath (absPath : Path) : Path :=
  joinPath (gdPath absPath) ['c', 'r', 'e', 'd', 'e', 'n', 't', 'i', 'a', 'l', 's', '.', 'j', 's', 'o', 'n']

/-- Source `indicesAbsPath`: `absPath/.gd/indices`. -/
def indicesAbsPath (absPath : Path) : Path :=
  joinPath (gdPath absPath) ['i', 'n', 'd', 'i', 'c', 'e', 's']

/-- Model of `ioutil.WriteFile`: store the payload at the (normalized)
path, overwriting any previous entry; write failures are not modelled (the
claims under verification do not exercise them). -/
def FS.writeFile (fs : FS) (p : Path) (d : FileData) : FS :=
  fs.addEntry p (.file d)

/-- Model of reading a file: the payload when a regular file is present. -/
def FS.readFile (fs : FS) (p : Path) : Option FileData :=
  match fs.entries.lookup (normPath p) with
  | some (.file d) => some d
  | _ => none

/-- Source `Context.Write`: marshal the credential triple and write it at
`credentialsPath c.AbsPath`. -/
def Context.Write (c : Context) (fs : FS) : FS :=
  fs.writeFile (credentialsPath c.AbsPath) (.creds c.ClientId c.ClientSecret c.RefreshToken)

/-- Source `Context.ReadIndices`: reads the file at
`indicesAbsPath c.AbsPath` — the parameter `p` is ignored by the code — and
unmarshals it into an `IndexFile`; a read failure or a payload that is not
an index file is an error. -/
def Context.ReadIndices (c : Context) (fs : FS) (p : Path) : Option IndexFile :=
  match fs.readFile (indicesAbsPath c.AbsPath) with
  | some (.index f) => some f
  | _ => none

/-- Source `Context.WriteIndices`: marshals `index` and writes it at
`indicesAbsPath p` — the receiver's root is ignored by the code. -/
def Context.WriteIndices (c : Context) (fs : FS) (index : IndexFile) (p : Path) : FS :=
  fs.writeFile (indicesAbsPath p) (.index index)

/-- Errors surfaced by `Initialize` in the model: the formatted
not-a-directory error, or a `MkdirAll` failure. -/
inductive InitErr
  | notADirectory (p : Path)
  | mkdirFailed
deriving DecidableEq

/-- Source `Initialize absPath`, returning
`(pathGD, firstInit, context, err)` together with the updated filesystem.
The branch structure mirrors the code exactly: on a stat error satisfying
`os.IsNotExist` the call proceeds with `firstInit = true`; on a stat error
satisfying neither `os.IsNotExist` nor `os.IsExist` the code executes a
bare `return`, so the named result `err` is still `nil` — the stat error is
swallowed, not propagated; an existing non-directory marker fails with the
not-a-directory error; otherwise the marker directory is created and a
fresh empty-credential record is written. -/
def Initialize (fs : FS) (absPath : Path) : Path × Bool × Option Context × Option InitErr × FS :=
  let pathGD := gdPath absPath
  match fs.statR pathGD with
  | .err .other => (pathGD, false, none, none, fs)
  | .ok e =>
    if !e.isDir then (pathGD, false, none, some (.notADirectory pathGD), fs)
    else
      match fs.mkdirAll pathGD with
      | none => (pathGD, false, none, some .mkdirFailed, fs)
      | some fs2 =>
        let c : Context := ⟨[], [], [], absPath⟩
        (pathGD, false, some c, none, c.Write fs2)
  | .err se =>
    let firstInit := se == StatErr.notExist
    match fs.mkdirAll pathGD with
    | none => (pathGD, firstInit, none, some .mkdirFailed, fs)
    | some fs2 =>
      let c : Context := ⟨[], [], [], absPath⟩
      (pathGD, firstInit, some c, none, c.Write fs2)

/-- Fuelled walk of source `LeastNonExistantRoot`: while the current path is
non-empty and `os.Stat` returns no `FileInfo`, remember it in `last` and
move to the parent; return the last path so remembered. -/
def lnrGoF (fs : FS) : Nat → Path → Path → Path
  | 0, last, _ => last
  | fuel + 1, last, p =>
    if p = [] then last
    else if (fs.statR p).isOk then last
    else lnrGoF fs fuel p (parentPath p)

/-- The walk of `LeastNonExistantRoot` with enough fuel for its argument. -/
def lnrGo (fs : FS) (last p : Path) : Path :=
  lnrGoF fs (p.length + 1) last p

/-- Source `LeastNonExistantRoot`: the topmost non-existent ancestor of
`contextAbsPath` (empty when the path itself exists or is empty). -/
def LeastNonExistantRoot (fs : FS) (contextAbsPath : Path) : Path :=
  lnrGo fs [] contextAbsPath

/-- Fuelled chain of a path and its successive parents, down to the empty
path (used only in specifications, to state what the walks visit). -/
def pathChainF : Nat → Path → List Path
  | 0, _ => []
  | fuel + 1, p => if p = [] then [] else p :: pathChainF fuel (parentPath p)

/-- The chain `p, parentPath p, parentPath (parentPath p), …` of a path. -/
def pathChain (p : Path) : List Path :=
  pathChainF (p.length + 1) p

/-- Relative display name of a mount point, joined with `"/"` exactly as the
source does: `"/" + base` for an empty context path, and
`"/" + contextPath + "/" + base` otherwise. -/
def relName (contextPath base : Path) : Path :=
  if contextPath = [] then List.intercalate [PathSeparator] [[], base]
  else List.intercalate [PathSeparator] [[], contextPath, base]

/-- Body of one iteration of the per-source loop of `MountPoints`, acting on
the loop state (filesystem, visited-set, accumulated mount points): skip a
visited path; mark the path visited; skip when `os.Stat` fails; skip hidden
base names unless `hidden` is set; create the symbolic link, treating an
`os.IsExist` failure as a pre-existing collision (`CanClean = false`) and
skipping on any other failure; append the resulting `MountPoint`. -/
def mountStep (contextPath contextAbsPath : Path) (hidden : Bool) (fs : FS) (x : Path)
    (visitors : List Path) (acc : List MountPoint) : FS × List Path × List MountPoint :=
  if x ∈ visitors then (fs, visitors, acc)
  else
    let visited := x :: visitors
    match fs.statR x with
    | .err _ => (fs, visited, acc)
    | .ok _ =>
      let base := filepathBase x
      if !hidden && List.isPrefixOf ['.'] base then (fs, visited, acc)
      else
        let mountPath := joinPath contextAbsPath base
        match fs.symlink x mountPath with
        | .errOther => (fs, visited, acc)
        | .errExist => (fs, visited, acc ++ [⟨false, relName contextPath base, x, mountPath⟩])
        | .ok fs2 => (fs2, visited, acc ++ [⟨true, relName contextPath base, x, mountPath⟩])

/-- The per-source loop of `MountPoints` over the list of source paths. -/
def mountLoop (contextPath contextAbsPath : Path) (hidden : Bool) :
    List Path → FS → List Path → List MountPoint → FS × List MountPoint
  | [], fs, _, acc => (fs, acc)
  | x :: rest, fs, visitors, acc =>
    let s := mountStep contextPath contextAbsPath hidden fs x visitors acc
    mountLoop contextPath contextAbsPath hidden rest s.1 s.2.1 s.2.2

/-- Aggregation step of `MountPoints` (source lines 268–277): a `Mount` is
returned only when at least one `MountPoint` was produced, and the two
root-creation fields are copied into it only when this call created the
mount root. -/
def finishMount (createdMountDir : Bool) (contextAbsPath shortestMountRoot : Path)
    (mtPoints : List MountPoint) : Option Mount :=
  if 1 ≤ mtPoints.length then
    some { CreatedMountDir := if createdMountDir then contextAbsPath else []
           ShortestMountRoot := if createdMountDir then shortestMountRoot else []
           Points := mtPoints }
  else none

/-- Source `MountPoints contextPath contextAbsPath paths hidden`, returning
`(mount, sources)` together with the final filesystem. Root preparation: an
existing root is used as is; a stat failure other than non-existence
aborts; otherwise the shortest non-existent root is recorded (and appended
to `sources`), the root is created with all missing ancestors, and a
`MkdirAll` failure aborts. Then every source path is processed by
`mountStep` and the results aggregated by `finishMount`. -/
def MountPoints (fs : FS) (contextPath contextAbsPath : Path) (paths : List Path)
    (hidden : Bool) : Option Mount × List Path × FS :=
  match fs.statR contextAbsPath with
  | .ok _ =>
    let r := mountLoop contextPath contextAbsPath hidden paths fs [] []
    (finishMount false contextAbsPath [] r.2, [], r.1)
  | .err se =>
    if se = .notExist then
      let sRoot := LeastNonExistantRoot fs contextAbsPath
      let shortestMountRoot := if sRoot = [] then [] else sRoot
      let sources := if sRoot = [] then [] else [sRoot]
      match fs.mkdirAll contextAbsPath with
      | none => (none, sources, fs)
      | some fs2 =>
        let r := mountLoop contextPath contextAbsPath hidden paths fs2 [] []
        (finishMount true contextAbsPath shortestMountRoot r.2, sources, r.1)
    else (none, [], fs)

/-- The list of mount points produced by a `MountPoints` call, following the
call's own root preparation (empty when the call aborts before the loop). -/
def producedPoints (fs : FS) (contextPath contextAbsPath : Path) (paths : List Path)
    (hidden : Bool) : List MountPoint :=
  match fs.statR contextAbsPath with
  | .ok _ => (mountLoop contextPath contextAbsPath hidden paths fs [] []).2
  | .err se =>
    if se = .notExist then
      match fs.mkdirAll contextAbsPath with
      | none => []
      | some fs2 => (mountLoop contextPath contextAbsPath hidden paths fs2 [] []).2
    else []

/-! Concrete inputs used by the evaluation witnesses and counterexamples. -/

/-- A filesystem containing only the root directory. -/
def fsRoot : FS := ⟨[([PathSeparator], Entry.dir)], [], [], []⟩

/-- Witness mount root `/a/b`. -/
def pAB : Path := "/a/b".toList

/-- Witness source path `/a/` — a caller string that coincides with the
shortest non-existent root of `/a/b` over `fsRoot`. -/
def pASlash : Path := "/a/".toList

/-- Witness root `/m`. -/
def pM : Path := "/m".toList

/-- Witness source `/d`. -/
def pD : Path := "/d".toList

/-- Witness hidden source `/.s`. -/
def pHid : Path := "/.s".toList

/-- Witness context root `/w`. -/
def pW : Path := "/w".toList

/-- Witness filesystem: root `/m` and source `/d` exist, and a regular file
already occupies the link path `/m/d`. -/
def fsCollide : FS :=
  ⟨[(pM, Entry.dir), (pD, Entry.dir), (joinPath pM (filepathBase pD), Entry.file .blob)],
    [], [], []⟩

/-- Witness filesystem: root `/m` and sources `/d` and `/.s` exist. -/
def fsPlain : FS := ⟨[(pM, Entry.dir), (pD, Entry.dir), (pHid, Entry.dir)], [], [], []⟩

/-- Witness filesystem: the stat of `/m` fails with an error unrelated to
existence. -/
def fsStatErr : FS := ⟨[], [(pM, StatErr.other)], [], []⟩

/-- Witness filesystem: the stat of the marker directory `/w/.gd` fails with
an error unrelated to existence. -/
def fsInitErr : FS := ⟨[], [(gdPath pW, StatErr.other)], [], []⟩

/-- Witness context rooted at `/w`. -/
def ctxW : Context := ⟨[], [], [], pW⟩

/-- Witness index file. -/
def ixW : IndexFile := ⟨['n'], [⟨['f'], ['e'], ['m'], ['t'], 3, 1, true⟩]⟩

/-! Basic lemmas: association-list lookups, path lengths, and the proved
fuel-free unfolding equations of the fuelled walks. -/

/-- Cons-step of an association-list lookup with a lawful `BEq` key type. -/
theorem lookup_cons_kv {b : Type} (k a : Path) (v : b) (es : List (Path × b)) :
    ((a, v) :: es).lookup k = if k == a then some v else es.lookup k := by
  cases h : k == a <;> simp [List.lookup, h]

/-- Entry lookup after `addEntry`. -/
theorem lookup_addEntry (fs : FS) (p q : Path) (e : Entry) :
    (fs.addEntry p e).entries.lookup q =
      if q == normPath p then some e else fs.entries.lookup q := by
  simp [FS.addEntry, lookup_cons_kv]

/-- Stat error declarations are untouched by `addEntry`. -/
theorem statErrs_addEntry (fs : FS) (p : Path) (e : Entry) :
    (fs.addEntry p e).statErrs = fs.statErrs := rfl

/-- An existing path keeps its exact entry under `addEntry` at a path that
was absent. -/
theorem lookup_addEntry_of_absent (fs : FS) (p q : Path) (e v : Entry)
    (habs : fs.entries.lookup (normPath p) = none)
    (hq : fs.entries.lookup q = some v) :
    (fs.addEntry p e).entries.lookup q = some v := by
  rw [lookup_addEntry]
  cases hqp : q == normPath p with
  | false => simp [hq]
  | true =>
    rw [eq_of_beq hqp] at hq
    rw [habs] at hq
    exact absurd hq (by simp)

/-- A path that stats successfully still does so after `addEntry`. -/
theorem statR_addEntry_isOk (fs : FS) (p q : Path) (e : Entry)
    (h : (fs.statR q).isOk = true) : ((fs.addEntry p e).statR q).isOk = true := by
  unfold FS.statR at h ⊢
  rw [show (fs.addEntry p e).entries = (normPath p, e) :: fs.entries from rfl, lookup_cons_kv]
  cases hqp : normPath q == normPath p with
  | true => simp [hqp, StatRes.isOk]
  | false =>
    simp only [hqp, Bool.false_eq_true, if_false]
    exact h

/-- The parent of a non-empty path is strictly shorter. -/
theorem parentPath_length_lt (p : Path) (hp : p ≠ []) : (parentPath p).length < p.length := by
  have hr : p.reverse ≠ [] := by simpa using hp
  unfold parentPath splitDir trimRightSep
  rw [List.reverse_reverse, List.length_reverse, ← List.length_reverse p]
  cases hrr : p.reverse with
  | nil => exact absurd hrr hr
  | cons c cs =>
    simp only [List.dropWhile_cons, List.length_cons]
    cases hcc : c == PathSeparator with
    | true =>
      simp only [hcc, if_pos]
      have h1 : ((cs.dropWhile fun c => c == PathSeparator).dropWhile
          fun c => c != PathSeparator).length ≤
          (cs.dropWhile fun c => c == PathSeparator).length :=
        (List.dropWhile_sublist _).length_le
      have h2 : (cs.dropWhile fun c => c == PathSeparator).length ≤ cs.length :=
        (List.dropWhile_sublist _).length_le
      omega
    | false =>
      have hne : (c != PathSeparator) = true := by simp [bne, hcc]
      simp only [hcc, Bool.false_eq_true, if_false, List.dropWhile_cons, hne, if_pos]
      have h1 : (cs.dropWhile fun c => c != PathSeparator).length ≤ cs.length :=
        (List.dropWhile_sublist _).length_le
      omega

/-- Fuel irrelevance for the `LeastNonExistantRoot` walk. -/
theorem lnrGoF_mono (fs : FS) (f1 : Nat) : ∀ f2 last p, p.length < f1 → p.length < f2 →
    lnrGoF fs f1 last p = lnrGoF fs f2 last p := by
  induction f1 with
  | zero => intro f2 last p h1 h2; omega
  | succ f1 ih =>
    intro f2 last p h1 h2
    cases f2 with
    | zero => omega
    | succ f2 =>
      simp only [lnrGoF]
      by_cases hp : p = []
      · simp [hp]
      · simp only [if_neg hp]
        by_cases hs : (fs.statR p).isOk = true
        · simp [hs]
        · simp only [hs, Bool.false_eq_true, if_false]
          have hlt := parentPath_length_lt p hp
          exact ih f2 p (parentPath p) (by omega) (by omega)

/-- The natural unfolding equation of the `LeastNonExistantRoot` walk. -/
theorem lnrGo_unfold (fs : FS) (last p : Path) :
    lnrGo fs last p =
      if p = [] then last
      else if (fs.statR p).isOk then last
      else lnrGo fs p (parentPath p) := by
  unfold lnrGo
  simp only [lnrGoF]
  by_cases hp : p = []
  · simp [hp]
  · simp only [if_neg hp]
    by_cases hs : (fs.statR p).isOk = true
    · simp [hs]
    · simp only [hs, Bool.false_eq_true, if_false]
      exact lnrGoF_mono fs p.length ((parentPath p).length + 1) p (parentPath p)
        (parentPath_length_lt p hp) (Nat.lt_succ_self _)

/-- Fuel irrelevance for the parent chain. -/
theorem pathChainF_mono (f1 : Nat) : ∀ f2 p, p.length < f1 → p.length < f2 →
    pathChainF f1 p = pathChainF f2 p := by
  induction f1 with
  | zero => intro f2 p h1 h2; omega
  | succ f1 ih =>
    intro f2 p h1 h2
    cases f2 with
    | zero => omega
    | succ f2 =>
      simp only [pathChainF]
      by_cases hp : p = []
      · simp [hp]
      · simp only [if_neg hp]
        have hlt := parentPath_length_lt p hp
        rw [ih f2 (parentPath p) (by omega) (by omega)]

/-- The natural unfolding equation of the parent chain. -/
theorem pathChain_unfold (p : Path) :
    pathChain p = if p = [] then [] else p :: pathChain (parentPath p) := by
  have h1 : pathChain p = if p = [] then [] else p :: pathChainF p.length (parentPath p) := rfl
  by_cases hp : p = []
  · subst hp; rfl
  · rw [h1, if_neg hp, if_neg hp]
    have hlt := parentPath_length_lt p hp
    unfold pathChain
    rw [pathChainF_mono p.length ((parentPath p).length + 1) (parentPath p) (by omega)
      (Nat.lt_succ_self _)]

/-- Fuel irrelevance for `MkdirAll`. -/
theorem mkdirAllF_mono (fs : FS) (f1 : Nat) : ∀ f2 p, p.length < f1 → p.length < f2 →
    mkdirAllF fs f1 p = mkdirAllF fs f2 p := by
  induction f1 with
  | zero => intro f2 p h1 h2; omega
  | succ f1 ih =>
    intro f2 p h1 h2
    cases f2 with
    | zero => omega
    | succ f2 =>
      simp only [mkdirAllF]
      cases hl : fs.entries.lookup (normPath p) with
      | some e => cases e <;> rfl
      | none =>
        by_cases hm : p ∈ fs.mkdirErrPaths
        · simp [hm]
        · simp only [if_neg hm]
          by_cases hp : p = []
          · simp [hp]
          · simp only [if_neg hp]
            by_cases hpar : parentPath p = []
            · simp [hpar]
            · simp only [if_neg hpar]
              have hlt := parentPath_length_lt p hp
              rw [ih f2 (parentPath p) (by omega) (by omega)]

/-- The natural unfolding equation of `MkdirAll`. -/
theorem mkdirAll_unfold (fs : FS) (p : Path) :
    fs.mkdirAll p =
      match fs.entries.lookup (normPath p) with
      | some .dir => some fs
      | some _ => none
      | none =>
        if p ∈ fs.mkdirErrPaths then none
        else if p = [] then none
        else if parentPath p = [] then some (fs.addEntry p .dir)
        else
          match fs.mkdirAll (parentPath p) with
          | none => none
          | some fs2 => some (fs2.addEntry p .dir) := by
  have h1 : fs.mkdirAll p =
      match fs.entries.lookup (normPath p) with
      | some .dir => some fs
      | some _ => none
      | none =>
        if p ∈ fs.mkdirErrPaths then none
        else if p = [] then none
        else if parentPath p = [] then some (fs.addEntry p .dir)
        else
          match mkdirAllF fs p.length (parentPath p) with
          | none => none
          | some fs2 => some (fs2.addEntry p .dir) := rfl
  rw [h1]
  cases hl : fs.entries.lookup (normPath p) with
  | some e => cases e <;> rfl
  | none =>
    by_cases hm : p ∈ fs.mkdirErrPaths
    · simp [hm]
    · simp only [if_neg hm]
      by_cases hp : p = []
      · simp [hp]
      · simp only [if_neg hp]
        by_cases hpar : parentPath p = []
        · simp [hpar]
        · simp only [if_neg hpar]
          have hlt := parentPath_length_lt p hp
          unfold FS.mkdirAll
          rw [mkdirAllF_mono fs p.length ((parentPath p).length + 1) (parentPath p) (by omega)
            (Nat.lt_succ_self _)]

/-! Lemmas about the `LeastNonExistantRoot` walk and about `MkdirAll`. -/

/-- Helper: `getLast?` with a default, over a cons. -/
theorem getLast?_getD_cons {a : Type} (x y : a) (l : List a) :
    ((x :: l).getLast?.getD y) = l.getLast?.getD x := by
  induction l generalizing x y with
  | nil => rfl
  | cons c l ih => rw [List.getLast?_cons_cons, ih c y, ih c x]

/-- The walk never turns a non-empty `last` into an empty result. -/
theorem lnrGoF_ne_nil (fs : FS) : ∀ fuel last p, last ≠ [] → lnrGoF fs fuel last p ≠ [] := by
  intro fuel
  induction fuel with
  | zero => intro last p h; exact h
  | succ fuel ih =>
    intro last p h
    simp only [lnrGoF]
    by_cases hp : p = []
    · simp only [if_pos hp]; exact h
    · simp only [if_neg hp]
      cases hs : (fs.statR p).isOk with
      | true => simp only [if_pos rfl]; exact h
      | false => simp only [Bool.false_eq_true, if_false]; exact ih p (parentPath p) hp

/-- The walk computes the last element of the non-existent prefix of the
parent chain (with `last` as the default for an empty prefix). -/
theorem lnrGoF_eq_takeWhile (fs : FS) : ∀ fuel last p, p.length < fuel →
    lnrGoF fs fuel last p =
      ((pathChain p).takeWhile fun q => !(fs.statR q).isOk).getLast?.getD last := by
  intro fuel
  induction fuel with
  | zero => intro last p h; omega
  | succ fuel ih =>
    intro last p h
    simp only [lnrGoF]
    rw [pathChain_unfold p]
    by_cases hp : p = []
    · simp [hp]
    · rw [if_neg hp, if_neg hp, List.takeWhile_cons]
      cases hs : (fs.statR p).isOk with
      | true => simp [hs]
      | false =>
        simp only [hs, Bool.not_false, if_pos]
        have hlt := parentPath_length_lt p hp
        rw [ih p (parentPath p) (by omega), getLast?_getD_cons]
        simp only [Bool.false_eq_true, if_false]

/-- Invariant-carrying specification of the walk: the result is the starting
`last` or a chain element, and a non-empty result does not exist while its
parent is empty or exists. -/
theorem lnrGoF_props (fs : FS) : ∀ fuel last p, p.length < fuel →
    (last ≠ [] → (fs.statR last).isOk = false ∧ parentPath last = p) →
    (lnrGoF fs fuel last p = last ∨ lnrGoF fs fuel last p ∈ pathChain p) ∧
    (lnrGoF fs fuel last p ≠ [] →
      (fs.statR (lnrGoF fs fuel last p)).isOk = false ∧
      (parentPath (lnrGoF fs fuel last p) = [] ∨
        (fs.statR (parentPath (lnrGoF fs fuel last p))).isOk = true)) := by
  intro fuel
  induction fuel with
  | zero => intro last p h; omega
  | succ fuel ih =>
    intro last p h hinv
    simp only [lnrGoF]
    by_cases hp : p = []
    · rw [if_pos hp]
      refine ⟨Or.inl rfl, fun hne => ?_⟩
      obtain ⟨h1, h2⟩ := hinv hne
      exact ⟨h1, Or.inl (h2.trans hp)⟩
    · rw [if_neg hp]
      cases hs : (fs.statR p).isOk with
      | true =>
        rw [if_pos rfl]
        refine ⟨Or.inl rfl, fun hne => ?_⟩
        obtain ⟨h1, h2⟩ := hinv hne
        refine ⟨h1, Or.inr ?_⟩
        rw [h2]
        exact hs
      | false =>
        simp only [Bool.false_eq_true, if_false]
        have hlt := parentPath_length_lt p hp
        obtain ⟨m1, m2⟩ := ih p (parentPath p) (by omega) (fun _ => ⟨hs, rfl⟩)
        refine ⟨?_, m2⟩
        rw [pathChain_unfold p, if_neg hp]
        rcases m1 with hm | hm
        · refine Or.inr ?_
          rw [hm]
          exact List.mem_cons_self _ _
        · exact Or.inr (List.mem_cons_of_mem _ hm)

/-- The result of `LeastNonExistantRoot` is empty exactly when the path is
empty or already exists. -/
theorem lnr_eq_nil_iff (fs : FS) (p : Path) :
    LeastNonExistantRoot fs p = [] ↔ (p = [] ∨ (fs.statR p).isOk = true) := by
  unfold LeastNonExistantRoot
  rw [lnrGo_unfold]
  constructor
  · intro h
    by_cases hp : p = []
    · exact Or.inl hp
    · cases hs : (fs.statR p).isOk with
      | true => exact Or.inr rfl
      | false =>
        rw [if_neg hp, hs] at h
        simp only [Bool.false_eq_true, if_false] at h
        exact absurd (lnrGoF_ne_nil fs ((parentPath p).length + 1) p (parentPath p) hp h)
          (by simp)
  · intro h
    rcases h with hp | hs
    · rw [if_pos hp]
    · by_cases hp : p = []
      · rw [if_pos hp]
      · rw [if_neg hp, if_pos hs]

/-- A successful stat means an entry is present at the normalized path. -/
theorem lookup_eq_none_of_statR_not_ok (fs : FS) (p : Path)
    (h : (fs.statR p).isOk = false) : fs.entries.lookup (normPath p) = none := by
  unfold FS.statR at h
  cases hl : fs.entries.lookup (normPath p) with
  | none => rfl
  | some e => rw [hl] at h; simp [StatRes.isOk] at h

/-- A freshly added entry stats successfully at its own path. -/
theorem statR_addEntry_self (fs : FS) (p : Path) (e : Entry) :
    ((fs.addEntry p e).statR p).isOk = true := by
  unfold FS.statR
  rw [show (fs.addEntry p e).entries = (normPath p, e) :: fs.entries from rfl, lookup_cons_kv]
  simp [StatRes.isOk]

/-- After a successful `MkdirAll`, the requested path stats successfully. -/
theorem mkdirAll_statR_isOk (fs fs' : FS) (p : Path) (h : fs.mkdirAll p = some fs') :
    (fs'.statR p).isOk = true := by
  rw [mkdirAll_unfold] at h
  cases hl : fs.entries.lookup (normPath p) with
  | some e =>
    rw [hl] at h
    cases e with
    | dir =>
      injection h with h2
      subst h2
      unfold FS.statR
      rw [hl]
      rfl
    | file d => exact absurd h (by simp)
    | symlink t => exact absurd h (by simp)
  | none =>
    rw [hl] at h
    by_cases hm : p ∈ fs.mkdirErrPaths
    · rw [if_pos hm] at h; exact absurd h (by simp)
    · rw [if_neg hm] at h
      by_cases hp : p = []
      · rw [if_pos hp] at h; exact absurd h (by simp)
      · rw [if_neg hp] at h
        by_cases hpar : parentPath p = []
        · rw [if_pos hpar] at h
          injection h with h2
          subst h2
          exact statR_addEntry_self fs p .dir
        · rw [if_neg hpar] at h
          cases hrec : fs.mkdirAll (parentPath p) with
          | none => rw [hrec] at h; exact absurd h (by simp)
          | some fs2 =>
            rw [hrec] at h
            injection h with h2
            subst h2
            exact statR_addEntry_self fs2 p .dir

/-- A successful `MkdirAll` on a path that did not stat successfully implies
the path was non-empty. -/
theorem mkdirAll_some_ne_nil (fs fs' : FS) (p : Path)
    (hs : (fs.statR p).isOk = false) (h : fs.mkdirAll p = some fs') : p ≠ [] := by
  intro hp
  rw [mkdirAll_unfold, lookup_eq_none_of_statR_not_ok fs p hs] at h
  by_cases hm : p ∈ fs.mkdirErrPaths
  · rw [if_pos hm] at h; exact absurd h (by simp)
  · rw [if_neg hm, if_pos hp] at h; exact absurd h (by simp)

/-- After a successful `MkdirAll`, every missing ancestor on the parent
chain of the requested path (the non-existent prefix of the chain) stats
successfully: the call created all missing ancestors. -/
theorem mkdirAllF_chain (fs : FS) : ∀ fuel p fs', p.length < fuel →
    mkdirAllF fs fuel p = some fs' →
    ∀ q ∈ (pathChain p).takeWhile fun r => !(fs.statR r).isOk,
      (fs'.statR q).isOk = true := by
  intro fuel
  induction fuel with
  | zero => intro p fs' h; omega
  | succ fuel ih =>
    intro p fs' h hmk q hq
    simp only [mkdirAllF] at hmk
    cases hl : fs.entries.lookup (normPath p) with
    | some e =>
      rw [hl] at hmk
      have hok : (fs.statR p).isOk = true := by
        unfold FS.statR
        rw [hl]
        rfl
      rw [pathChain_unfold p] at hq
      by_cases hp : p = []
      · rw [if_pos hp] at hq; simp at hq
      · rw [if_neg hp, List.takeWhile_cons] at hq
        simp only [hok, Bool.not_true, Bool.false_eq_true, if_false] at hq
        simp at hq
    | none =>
      rw [hl] at hmk
      have hnok : (fs.statR p).isOk = false := by
        unfold FS.statR
        rw [hl]
        rfl
      by_cases hm : p ∈ fs.mkdirErrPaths
      · rw [if_pos hm] at hmk; exact absurd hmk (by simp)
      · rw [if_neg hm] at hmk
        by_cases hp : p = []
        · rw [if_pos hp] at hmk; exact absurd hmk (by simp)
        · rw [if_neg hp] at hmk
          rw [pathChain_unfold p, if_neg hp, List.takeWhile_cons] at hq
          simp only [hnok, Bool.not_false, if_pos] at hq
          have hlt := parentPath_length_lt p hp
          by_cases hpar : parentPath p = []
          · rw [if_pos hpar] at hmk
            injection hmk with h2
            subst h2
            rcases List.mem_cons.mp hq with hqp | hqtail
            · subst hqp; exact statR_addEntry_self _ _ .dir
            · rw [pathChain_unfold, if_pos hpar] at hqtail
              simp at hqtail
          · rw [if_neg hpar] at hmk
            cases hrec : mkdirAllF fs fuel (parentPath p) with
            | none => rw [hrec] at hmk; exact absurd hmk (by simp)
            | some fs2 =>
              rw [hrec] at hmk
              injection hmk with h2
              subst h2
              rcases List.mem_cons.mp hq with hqp | hqtail
              · subst hqp; exact statR_addEntry_self _ _ .dir
              · exact statR_addEntry_isOk fs2 p q .dir
                  (ih (parentPath p) fs2 (by omega) hrec q hqtail)

/-- Chain-creation property of `MkdirAll` at its natural fuel. -/
theorem mkdirAll_chain (fs fs' : FS) (p : Path) (h : fs.mkdirAll p = some fs') :
    ∀ q ∈ (pathChain p).takeWhile fun r => !(fs.statR r).isOk,
      (fs'.statR q).isOk = true :=
  mkdirAllF_chain fs (p.length + 1) p fs' (Nat.lt_succ_self _) h

/-! Lemmas about the per-source loop of `MountPoints`. -/

/-- A visited source path leaves the loop state unchanged. -/
theorem mountStep_visited (cp cap : Path) (hid : Bool) (fs : FS) (x : Path)
    (visitors : List Path) (acc : List MountPoint) (h : x ∈ visitors) :
    mountStep cp cap hid fs x visitors acc = (fs, visitors, acc) := by
  unfold mountStep
  rw [if_pos h]

/-- The visited set after one step: unchanged for an already-visited path
(which is then a member), extended by the path otherwise. -/
theorem mountStep_vis_cases (cp cap : Path) (hid : Bool) (fs : FS) (x : Path)
    (visitors : List Path) (acc : List MountPoint) :
    (x ∈ visitors ∧ (mountStep cp cap hid fs x visitors acc).2.1 = visitors) ∨
      (mountStep cp cap hid fs x visitors acc).2.1 = x :: visitors := by
  by_cases hv : x ∈ visitors
  · rw [mountStep_visited cp cap hid fs x visitors acc hv]
    exact Or.inl ⟨hv, rfl⟩
  · simp only [mountStep, if_neg hv]
    split
    · exact Or.inr rfl
    · split
      · exact Or.inr rfl
      · split <;> exact Or.inr rfl

/-- The accumulator after one step: unchanged, or extended with exactly one
mount point for the processed (then unvisited) source path. -/
theorem mountStep_acc_cases (cp cap : Path) (hid : Bool) (fs : FS) (x : Path)
    (visitors : List Path) (acc : List MountPoint) :
    (mountStep cp cap hid fs x visitors acc).2.2 = acc ∨
      (x ∉ visitors ∧ ∃ b,
        (mountStep cp cap hid fs x visitors acc).2.2 =
          acc ++ [⟨b, relName cp (filepathBase x), x, joinPath cap (filepathBase x)⟩]) := by
  by_cases hv : x ∈ visitors
  · rw [mountStep_visited cp cap hid fs x visitors acc hv]
    exact Or.inl rfl
  · simp only [mountStep, if_neg hv]
    split
    · exact Or.inl rfl
    · split
      · exact Or.inl rfl
      · split
        · exact Or.inl rfl
        · exact Or.inr ⟨hv, false, rfl⟩
        · exact Or.inr ⟨hv, true, rfl⟩

/-- Inversion of a successful `symlink`: the link path was free and the new
state is the old one plus the link entry. -/
theorem symlink_ok_inv (fs fs' : FS) (t lp : Path) (h : fs.symlink t lp = .ok fs') :
    fs.entries.lookup (normPath lp) = none ∧ fs' = fs.addEntry lp (.symlink t) := by
  unfold FS.symlink at h
  cases hl : fs.entries.lookup (normPath lp) with
  | some e => rw [hl] at h; exact absurd h (by simp)
  | none =>
    rw [hl] at h
    by_cases hle : lp ∈ fs.linkErrPaths
    · rw [if_pos hle] at h; exact absurd h (by simp)
    · rw [if_neg hle] at h
      injection h with h2
      exact ⟨rfl, h2.symm⟩

/-- One loop step never disturbs an existing entry (links are only created
at free link paths). -/
theorem mountStep_lookup_preserved (cp cap : Path) (hid : Bool) (fs : FS) (x : Path)
    (visitors : List Path) (acc : List MountPoint) (k : Path) (v : Entry)
    (hk : fs.entries.lookup k = some v) :
    (mountStep cp cap hid fs x visitors acc).1.entries.lookup k = some v := by
  simp only [mountStep]
  split
  · exact hk
  · split
    · exact hk
    · split
      · exact hk
      · split
        · exact hk
        · exact hk
        · rename_i fs2 heq
          obtain ⟨habs, h2⟩ := symlink_ok_inv fs fs2 _ _ heq
          rw [h2, lookup_addEntry]
          cases hkp : k == normPath (joinPath cap (filepathBase x)) with
          | false => simp only [Bool.false_eq_true, if_false]; exact hk
          | true =>
            rw [eq_of_beq hkp] at hk
            rw [hk] at habs
            exact absurd habs (by simp)

/-- The loop only appends to its accumulator. -/
theorem mountLoop_acc_extends (cp cap : Path) (hid : Bool) :
    ∀ (paths : List Path) (fs : FS) (visitors : List Path) (acc : List MountPoint),
      ∃ t, (mountLoop cp cap hid paths fs visitors acc).2 = acc ++ t := by
  intro paths
  induction paths with
  | nil => intro fs visitors acc; exact ⟨[], (List.append_nil acc).symm⟩
  | cons x rest ih =>
    intro fs visitors acc
    simp only [mountLoop]
    obtain ⟨t, ht⟩ := ih (mountStep cp cap hid fs x visitors acc).1
      (mountStep cp cap hid fs x visitors acc).2.1
      (mountStep cp cap hid fs x visitors acc).2.2
    rcases mountStep_acc_cases cp cap hid fs x visitors acc with hc | ⟨hv, b, hc⟩
    · exact ⟨t, by rw [ht, hc]⟩
    · refine ⟨⟨b, relName cp (filepathBase x), x, joinPath cap (filepathBase x)⟩ :: t, ?_⟩
      rw [ht, hc]
      simp

/-- The loop never disturbs an existing entry. -/
theorem mountLoop_lookup_preserved (cp cap : Path) (hid : Bool) :
    ∀ (paths : List Path) (fs : FS) (visitors : List Path) (acc : List MountPoint)
      (k : Path) (v : Entry),
      fs.entries.lookup k = some v →
      (mountLoop cp cap hid paths fs visitors acc).1.entries.lookup k = some v := by
  intro paths
  induction paths with
  | nil => intro fs visitors acc k v hk; exact hk
  | cons x rest ih =>
    intro fs visitors acc k v hk
    simp only [mountLoop]
    exact ih _ _ _ k v (mountStep_lookup_preserved cp cap hid fs x visitors acc k v hk)

/-- A path that stats successfully still does so after the loop. -/
theorem mountLoop_statR_isOk (cp cap : Path) (hid : Bool) (paths : List Path) (fs : FS)
    (visitors : List Path) (acc : List MountPoint) (q : Path)
    (h : (fs.statR q).isOk = true) :
    ((mountLoop cp cap hid paths fs visitors acc).1.statR q).isOk = true := by
  unfold FS.statR at h ⊢
  cases hl : fs.entries.lookup (normPath q) with
  | none => rw [hl] at h; simp [StatRes.isOk] at h
  | some v =>
    rw [mountLoop_lookup_preserved cp cap hid paths fs visitors acc (normPath q) v hl]
    rfl

/-- Processing a source path a second time is a no-op: the loop result is
unchanged when a later duplicate of an already-guaranteed-visited path is
dropped from the list. -/
theorem mountLoop_dup_drop (cp cap : Path) (hid : Bool) (x : Path) (l3 : List Path) :
    ∀ (l1 : List Path) (fs : FS) (visitors : List Path) (acc : List MountPoint),
      (x ∈ visitors ∨ x ∈ l1) →
      mountLoop cp cap hid (l1 ++ x :: l3) fs visitors acc =
        mountLoop cp cap hid (l1 ++ l3) fs visitors acc := by
  intro l1
  induction l1 with
  | nil =>
    intro fs visitors acc h
    rcases h with h | h
    · simp only [List.nil_append, mountLoop]
      rw [mountStep_visited cp cap hid fs x visitors acc h]
    · exact absurd h (by simp)
  | cons y l1 ih =>
    intro fs visitors acc h
    simp only [List.cons_append, mountLoop]
    apply ih
    rcases h with h | h
    · left
      rcases mountStep_vis_cases cp cap hid fs y visitors acc with ⟨_, hc⟩ | hc
      · rw [hc]; exact h
      · rw [hc]; exact List.mem_cons_of_mem _ h
    · rcases List.mem_cons.mp h with hxy | hx
      · left
        subst hxy
        rcases mountStep_vis_cases cp cap hid fs x visitors acc with ⟨hxv, hc⟩ | hc
        · rw [hc]; exact hxv
        · rw [hc]; exact List.mem_cons_self _ _
      · exact Or.inr hx

/-- The source paths of the accumulated mount points are pairwise distinct:
the visited set guards every append. -/
theorem mountLoop_nodup (cp cap : Path) (hid : Bool) :
    ∀ (paths : List Path) (fs : FS) (visitors : List Path) (acc : List MountPoint),
      (∀ pt ∈ acc, pt.AbsPath ∈ visitors) →
      (acc.map MountPoint.AbsPath).Nodup →
      ((mountLoop cp cap hid paths fs visitors acc).2.map MountPoint.AbsPath).Nodup := by
  intro paths
  induction paths with
  | nil => intro fs visitors acc hmem hnd; exact hnd
  | cons x rest ih =>
    intro fs visitors acc hmem hnd
    simp only [mountLoop]
    apply ih
    · intro pt hpt
      rcases mountStep_acc_cases cp cap hid fs x visitors acc with hc | ⟨hv, b, hc⟩
      · rw [hc] at hpt
        rcases mountStep_vis_cases cp cap hid fs x visitors acc with ⟨_, hc2⟩ | hc2
        · rw [hc2]; exact hmem pt hpt
        · rw [hc2]; exact List.mem_cons_of_mem _ (hmem pt hpt)
      · rw [hc] at hpt
        rcases List.mem_append.mp hpt with hold | hnew
        · rcases mountStep_vis_cases cp cap hid fs x visitors acc with ⟨_, hc2⟩ | hc2
          · rw [hc2]; exact hmem pt hold
          · rw [hc2]; exact List.mem_cons_of_mem _ (hmem pt hold)
        · have hpt2 : pt =
              ⟨b, relName cp (filepathBase x), x, joinPath cap (filepathBase x)⟩ := by
            simpa using hnew
          rcases mountStep_vis_cases cp cap hid fs x visitors acc with ⟨hxv, hc2⟩ | hc2
          · exact absurd hxv hv
          · rw [hc2, hpt2]; exact List.mem_cons_self _ _
    · rcases mountStep_acc_cases cp cap hid fs x visitors acc with hc | ⟨hv, b, hc⟩
      · rw [hc]; exact hnd
      · rw [hc, List.map_append]
        refine List.Nodup.append hnd (by simp) ?_
        intro a ha hb
        have hax : a = x := by simpa using hb
        subst hax
        obtain ⟨pt', hpt', habs⟩ := List.mem_map.mp ha
        rw [← habs] at hv
        exact hv (hmem pt' hpt')

/-- With `hidden = false`, a step appends only mount points whose source
base name does not begin with the hidden marker. -/
theorem mountStep_acc_hidden (cp cap : Path) (fs : FS) (x : Path)
    (visitors : List Path) (acc : List MountPoint) :
    ∀ pt ∈ (mountStep cp cap false fs x visitors acc).2.2,
      pt ∈ acc ∨ List.isPrefixOf ['.'] (filepathBase pt.AbsPath) = false := by
  intro pt hpt
  simp only [mountStep] at hpt
  split at hpt
  · exact Or.inl hpt
  · split at hpt
    · exact Or.inl hpt
    · split at hpt
      · exact Or.inl hpt
      · rename_i hcond
        have hbase : List.isPrefixOf ['.'] (filepathBase x) = false := by
          cases hb : List.isPrefixOf ['.'] (filepathBase x) with
          | false => rfl
          | true => exact absurd (by simp [hb]) hcond
        split at hpt
        · exact Or.inl hpt
        · rcases List.mem_append.mp hpt with hold | hnew
          · exact Or.inl hold
          · right
            have hpt2 : pt =
                ⟨false, relName cp (filepathBase x), x, joinPath cap (filepathBase x)⟩ := by
              simpa using hnew
            rw [hpt2]
            exact hbase
        · rcases List.mem_append.mp hpt with hold | hnew
          · exact Or.inl hold
          · right
            have hpt2 : pt =
                ⟨true, relName cp (filepathBase x), x, joinPath cap (filepathBase x)⟩ := by
              simpa using hnew
            rw [hpt2]
            exact hbase

/-- With `hidden = false`, no accumulated mount point has a source whose
base name begins with the hidden marker. -/
theorem mountLoop_no_hidden (cp cap : Path) :
    ∀ (paths : List Path) (fs : FS) (visitors : List Path) (acc : List MountPoint),
      (∀ pt ∈ acc, List.isPrefixOf ['.'] (filepathBase pt.AbsPath) = false) →
      ∀ pt ∈ (mountLoop cp cap false paths fs visitors acc).2,
        List.isPrefixOf ['.'] (filepathBase pt.AbsPath) = false := by
  intro paths
  induction paths with
  | nil => intro fs visitors acc hacc pt hpt; exact hacc pt hpt
  | cons x rest ih =>
    intro fs visitors acc hacc pt hpt
    simp only [mountLoop] at hpt
    refine ih _ _ _ ?_ pt hpt
    intro pt2 hpt2
    rcases mountStep_acc_hidden cp cap fs x visitors acc pt2 hpt2 with h | h
    · exact hacc pt2 h
    · exact h

/-- A collision step: the source path stats, is not filtered, and the link
path is occupied, so the step keeps the filesystem and appends exactly one
non-cleanable mount point. -/
theorem mountStep_collision (cp cap : Path) (hid : Bool) (fs : FS) (x : Path)
    (visitors : List Path) (acc : List MountPoint) (e : Entry)
    (hv : x ∉ visitors)
    (hstat : (fs.statR x).isOk = true)
    (hhid : (!hid && List.isPrefixOf ['.'] (filepathBase x)) = false)
    (hcol : fs.entries.lookup (normPath (joinPath cap (filepathBase x))) = some e) :
    mountStep cp cap hid fs x visitors acc =
      (fs, x :: visitors,
        acc ++ [⟨false, relName cp (filepathBase x), x, joinPath cap (filepathBase x)⟩]) := by
  simp only [mountStep, if_neg hv]
  cases hsx : fs.statR x with
  | err se => rw [hsx] at hstat; simp [StatRes.isOk] at hstat
  | ok e2 =>
    rw [hhid]
    simp only [Bool.false_eq_true, if_false, FS.symlink, hcol]

/-- A producing step with `hidden = true`: the source path stats, was not
visited, and the link attempt does not fail with an unrelated error, so the
step appends exactly one mount point for it. -/
theorem mountStep_produces (cp cap : Path) (fs : FS) (x : Path)
    (visitors : List Path) (acc : List MountPoint)
    (hv : x ∉ visitors)
    (hstat : (fs.statR x).isOk = true)
    (hlink : fs.symlink x (joinPath cap (filepathBase x)) ≠ .errOther) :
    ∃ b fs2, mountStep cp cap true fs x visitors acc =
      (fs2, x :: visitors,
        acc ++ [⟨b, relName cp (filepathBase x), x, joinPath cap (filepathBase x)⟩]) := by
  simp only [mountStep, if_neg hv]
  cases hsx : fs.statR x with
  | err se => rw [hsx] at hstat; simp [StatRes.isOk] at hstat
  | ok e2 =>
    simp only [Bool.not_true, Bool.false_and, Bool.false_eq_true, if_false]
    cases hsl : fs.symlink x (joinPath cap (filepathBase x)) with
    | errOther => exact absurd hsl hlink
    | errExist => exact ⟨false, fs, rfl⟩
    | ok fs2 => exact ⟨true, fs2, rfl⟩

/-! Helper lemmas about the aggregation step. -/

/-- The aggregation yields no `Mount` exactly for an empty point list. -/
theorem finishMount_eq_none_iff (c : Bool) (cap sroot : Path) (pts : List MountPoint) :
    finishMount c cap sroot pts = none ↔ pts = [] := by
  unfold finishMount
  by_cases hlen : 1 ≤ pts.length
  · rw [if_pos hlen]
    constructor
    · intro h; exact absurd h (by simp)
    · intro h; subst h; simp at hlen
  · rw [if_neg hlen]
    constructor
    · intro _
      cases pts with
      | nil => rfl
      | cons a l => simp at hlen
    · intro _; rfl

/-- The aggregation stores exactly the produced point list. -/
theorem finishMount_some_points (c : Bool) (cap sroot : Path) (pts : List MountPoint)
    (m : Mount) (h : finishMount c cap sroot pts = some m) : m.Points = pts := by
  unfold finishMount at h
  by_cases hlen : 1 ≤ pts.length
  · rw [if_pos hlen] at h
    injection h with h2
    rw [← h2]
  · rw [if_neg hlen] at h
    exact absurd h (by simp)

/-- The aggregation copies the root-creation fields only when the call
created the root. -/
theorem finishMount_some_created (c : Bool) (cap sroot : Path) (pts : List MountPoint)
    (m : Mount) (h : finishMount c cap sroot pts = some m) :
    m.CreatedMountDir = (if c then cap else []) ∧
      m.ShortestMountRoot = (if c then sroot else []) := by
  unfold finishMount at h
  by_cases hlen : 1 ≤ pts.length
  · rw [if_pos hlen] at h
    injection h with h2
    rw [← h2]
    exact ⟨rfl, rfl⟩
  · rw [if_neg hlen] at h
    exact absurd h (by simp)

/-! The claims. -/

/-- Claim C4: `LeastNonExistantRoot p` returns the topmost path on the chain
from `p` to the root that does not exist — the last non-existent path
visited while walking parents until an existing entry is found or the path
empties — and returns the empty string if `p` itself exists (or is empty);
when the result is non-empty, it denotes a path that does not exist whose
parent (the next step of the walk) exists or is empty. -/
theorem lnr_spec (fs : FS) (p : Path) :
    (LeastNonExistantRoot fs p =
      ((pathChain p).takeWhile fun q => !(fs.statR q).isOk).getLast?.getD []) ∧
    (LeastNonExistantRoot fs p = [] ↔ (p = [] ∨ (fs.statR p).isOk = true)) ∧
    (LeastNonExistantRoot fs p ≠ [] →
      LeastNonExistantRoot fs p ∈ pathChain p ∧
      (fs.statR (LeastNonExistantRoot fs p)).isOk = false ∧
      (parentPath (LeastNonExistantRoot fs p) = [] ∨
        (fs.statR (parentPath (LeastNonExistantRoot fs p))).isOk = true)) := by
  refine ⟨?_, lnr_eq_nil_iff fs p, ?_⟩
  · show lnrGoF fs (p.length + 1) [] p = _
    exact lnrGoF_eq_takeWhile fs (p.length + 1) [] p (Nat.lt_succ_self _)
  · intro hne
    obtain ⟨m1, m2⟩ := lnrGoF_props fs (p.length + 1) [] p (Nat.lt_succ_self _)
      (fun h => absurd rfl h)
    obtain ⟨h1, h2⟩ := m2 hne
    refine ⟨?_, h1, h2⟩
    rcases m1 with hm | hm
    · exact absurd hm hne
    · exact hm

/-- Evaluation witness for C4 over `fsRoot` at `/a/b`, whose highest
non-existent ancestor is `/a/`. -/
theorem lnr_spec_witness :
    LeastNonExistantRoot fsRoot pAB ≠ [] ∧
    (LeastNonExistantRoot fsRoot pAB ∈ pathChain pAB ∧
      (fsRoot.statR (LeastNonExistantRoot fsRoot pAB)).isOk = false ∧
      (parentPath (LeastNonExistantRoot fsRoot pAB) = [] ∨
        (fsRoot.statR (parentPath (LeastNonExistantRoot fsRoot pAB))).isOk = true)) :=
  ⟨by decide, (lnr_spec fsRoot pAB).2.2 (by decide)⟩

/-- Claim C1: when the symbolic link for a source path fails because an
entry already exists at the link path, a `MountPoint` is still produced for
that source with `cleanable = false`, and `Unmount` on that mount point
returns no error and removes nothing — the pre-existing entry at the link
path is untouched in the loop's final filesystem and survives the unmount
unchanged. -/
theorem mountPoints_collision_noncleanable (cp cap : Path) (hid : Bool) (fs : FS)
    (x : Path) (rest visitors : List Path) (acc : List MountPoint) (e : Entry)
    (hv : x ∉ visitors)
    (hstat : (fs.statR x).isOk = true)
    (hhid : (!hid && List.isPrefixOf ['.'] (filepathBase x)) = false)
    (hcol : fs.entries.lookup (normPath (joinPath cap (filepathBase x))) = some e) :
    (⟨false, relName cp (filepathBase x), x, joinPath cap (filepathBase x)⟩ : MountPoint) ∈
      (mountLoop cp cap hid (x :: rest) fs visitors acc).2 ∧
    MountPoint.Unmount ⟨false, relName cp (filepathBase x), x, joinPath cap (filepathBase x)⟩
        (mountLoop cp cap hid (x :: rest) fs visitors acc).1 =
      (none, (mountLoop cp cap hid (x :: rest) fs visitors acc).1) ∧
    (mountLoop cp cap hid (x :: rest) fs visitors acc).1.entries.lookup
        (normPath (joinPath cap (filepathBase x))) = some e := by
  have hstep := mountStep_collision cp cap hid fs x visitors acc e hv hstat hhid hcol
  have hloop : mountLoop cp cap hid (x :: rest) fs visitors acc =
      mountLoop cp cap hid rest fs (x :: visitors)
        (acc ++ [⟨false, relName cp (filepathBase x), x, joinPath cap (filepathBase x)⟩]) := by
    conv_lhs => rw [show mountLoop cp cap hid (x :: rest) fs visitors acc =
      mountLoop cp cap hid rest (mountStep cp cap hid fs x visitors acc).1
        (mountStep cp cap hid fs x visitors acc).2.1
        (mountStep cp cap hid fs x visitors acc).2.2 from rfl]
    rw [hstep]
  rw [hloop]
  refine ⟨?_, rfl, ?_⟩
  · obtain ⟨t, ht⟩ := mountLoop_acc_extends cp cap hid rest fs (x :: visitors)
      (acc ++ [⟨false, relName cp (filepathBase x), x, joinPath cap (filepathBase x)⟩])
    rw [ht]
    simp
  · exact mountLoop_lookup_preserved cp cap hid rest fs (x :: visitors)
      (acc ++ [⟨false, relName cp (filepathBase x), x, joinPath cap (filepathBase x)⟩])
      (normPath (joinPath cap (filepathBase x))) e hcol

/-- Evaluation witness for C1 over `fsCollide`: mounting `/d` under `/m`
with a file already at `/m/d`. -/
theorem mountPoints_collision_noncleanable_witness :
    (⟨false, relName [] (filepathBase pD), pD, joinPath pM (filepathBase pD)⟩ : MountPoint) ∈
      (mountLoop [] pM true [pD] fsCollide [] []).2 ∧
    MountPoint.Unmount ⟨false, relName [] (filepathBase pD), pD, joinPath pM (filepathBase pD)⟩
        (mountLoop [] pM true [pD] fsCollide [] []).1 =
      (none, (mountLoop [] pM true [pD] fsCollide [] []).1) ∧
    (mountLoop [] pM true [pD] fsCollide [] []).1.entries.lookup
        (normPath (joinPath pM (filepathBase pD))) = some (Entry.file .blob) :=
  mountPoints_collision_noncleanable [] pM true fsCollide pD [] [] [] (Entry.file .blob)
    (by decide) (by decide) (by decide) (by decide)

/-- Claim C2: a `MountPoints` call that produces zero mount points returns
no `Mount` (even when it freshly created the mount root — every branch of
the call is covered); when at least one is produced, the returned `Mount`
holds the ordered list of all produced mount points. -/
theorem mountPoints_mount_iff_points (fs : FS) (cp cap : Path) (paths : List Path)
    (hid : Bool) :
    ((MountPoints fs cp cap paths hid).1 = none ↔
      producedPoints fs cp cap paths hid = []) ∧
    (∀ m, (MountPoints fs cp cap paths hid).1 = some m →
      m.Points = producedPoints fs cp cap paths hid) := by
  unfold MountPoints producedPoints
  cases hs : fs.statR cap with
  | ok e =>
    simp only []
    exact ⟨finishMount_eq_none_iff false cap [] _,
      fun m hm => finishMount_some_points false cap [] _ m hm⟩
  | err se =>
    by_cases hse : se = StatErr.notExist
    · subst hse
      simp only []
      simp only [if_true]
      cases hmk : fs.mkdirAll cap with
      | none => simp
      | some fs2 =>
        simp only []
        exact ⟨finishMount_eq_none_iff true cap _ _,
          fun m hm => finishMount_some_points true cap _ _ m hm⟩
    · simp [hse]

/-- Evaluation witness for C2 over `fsPlain`: one produced point, and the
returned mount carries exactly the produced list. -/
theorem mountPoints_mount_iff_points_witness :
    Mount.Points ⟨[], [], [⟨true, relName [] (filepathBase pD), pD,
        joinPath pM (filepathBase pD)⟩]⟩ =
      producedPoints fsPlain [] pM [pD] false :=
  (mountPoints_mount_iff_points fsPlain [] pM [pD] false).2 _ (by decide)

/-- Claim C3: when the stat of the mount root fails with an error other
than non-existence, the call is a terminal failure — `nil` mount, no
sources, and the filesystem is returned unchanged (no directory was
created); when the failure is non-existence, the highest non-existent
ancestor is recorded as the shortest mount root (and is the only source),
and a successful root creation materializes the root together with every
missing ancestor on its parent chain. -/
theorem mountPoints_root_stat_spec (fs : FS) (cp cap : Path) (paths : List Path)
    (hid : Bool) :
    (∀ se, fs.statR cap = .err se → se ≠ StatErr.notExist →
      MountPoints fs cp cap paths hid = (none, [], fs)) ∧
    (fs.statR cap = .err .notExist →
      ((MountPoints fs cp cap paths hid).2.1 =
        if LeastNonExistantRoot fs cap = [] then [] else [LeastNonExistantRoot fs cap]) ∧
      ∀ fs2, fs.mkdirAll cap = some fs2 →
        (((MountPoints fs cp cap paths hid).2.2).statR cap).isOk = true ∧
        ∀ q ∈ (pathChain cap).takeWhile fun r => !(fs.statR r).isOk,
          (((MountPoints fs cp cap paths hid).2.2).statR q).isOk = true) := by
  constructor
  · intro se hse hne
    unfold MountPoints
    rw [hse]
    simp only []
    rw [if_neg hne]
  · intro hse
    unfold MountPoints
    rw [hse]
    simp only []
    simp only [if_true]
    cases hmk : fs.mkdirAll cap with
    | none =>
      simp only []
      refine ⟨trivial, ?_⟩
      intro fs2 hmk2
      exact absurd hmk2 (by simp)
    | some fs2 =>
      simp only []
      refine ⟨trivial, ?_⟩
      intro fs2' hmk2
      injection hmk2 with h2
      subst h2
      constructor
      · exact mountLoop_statR_isOk cp cap hid paths fs2 [] [] cap
          (mkdirAll_statR_isOk fs fs2 cap hmk)
      · intro q hq
        exact mountLoop_statR_isOk cp cap hid paths fs2 [] [] q
          (mkdirAll_chain fs fs2 cap hmk q hq)

/-- Evaluation witness for C3: a declared stat failure at `/m` aborts the
call with the filesystem unchanged; an absent root `/a/b` over `fsRoot`
records `/a/` as the only source and is materialized with its missing
ancestor. -/
theorem mountPoints_root_stat_spec_witness :
    MountPoints fsStatErr [] pM [pD] false = (none, [], fsStatErr) ∧
    ((MountPoints fsRoot [] pAB [pD] false).2.1 =
      if LeastNonExistantRoot fsRoot pAB = [] then [] else [LeastNonExistantRoot fsRoot pAB]) ∧
    (((MountPoints fsRoot [] pAB [pD] false).2.2).statR pAB).isOk = true ∧
    (((MountPoints fsRoot [] pAB [pD] false).2.2).statR pASlash).isOk = true := by
  refine ⟨?_, ?_, ?_, ?_⟩
  · exact (mountPoints_root_stat_spec fsStatErr [] pM [pD] false).1 StatErr.other
      (by decide) (by decide)
  · exact ((mountPoints_root_stat_spec fsRoot [] pAB [pD] false).2 (by decide)).1
  · exact (((mountPoints_root_stat_spec fsRoot [] pAB [pD] false).2 (by decide)).2
      ((fsRoot.addEntry pASlash Entry.dir).addEntry pAB Entry.dir) (by decide)).1
  · exact (((mountPoints_root_stat_spec fsRoot [] pAB [pD] false).2 (by decide)).2
      ((fsRoot.addEntry pASlash Entry.dir).addEntry pAB Entry.dir) (by decide)).2
      pASlash (by decide)

/-- Counterexample to C9 as stated: the returned sources CAN contain one of
the caller's source paths — over `fsRoot`, mounting root `/a/b` with the
single source path `/a/` yields sources `[/a/]`, which is exactly the
caller's source path (it coincides with the shortest non-existent root). -/
theorem mountPoints_sources_counterexample :
    pASlash ∈ (MountPoints fsRoot [] pAB [pASlash] false).2.1 := by decide

/-- Claim C9 (amended): the second return value of `MountPoints` is empty
unless the mount root was absent (stat failed with non-existence) and its
highest non-existent ancestor was non-empty, in which case it contains
exactly one element equal to that shortest mount root — which is not drawn
from the caller's source-path list, though it may coincide with one of its
strings. -/
theorem mountPoints_sources_spec (fs : FS) (cp cap : Path) (paths : List Path)
    (hid : Bool) :
    ((fs.statR cap).isOk = true → (MountPoints fs cp cap paths hid).2.1 = []) ∧
    (∀ se, fs.statR cap = .err se → se ≠ StatErr.notExist →
      (MountPoints fs cp cap paths hid).2.1 = []) ∧
    (fs.statR cap = .err .notExist →
      (MountPoints fs cp cap paths hid).2.1 =
        if LeastNonExistantRoot fs cap = [] then [] else [LeastNonExistantRoot fs cap]) := by
  refine ⟨?_, ?_, fun hse => ((mountPoints_root_stat_spec fs cp cap paths hid).2 hse).1⟩
  · intro hok
    unfold MountPoints
    cases hs : fs.statR cap with
    | ok e => simp only []
    | err se => rw [hs] at hok; simp [StatRes.isOk] at hok
  · intro se hse hne
    rw [(mountPoints_root_stat_spec fs cp cap paths hid).1 se hse hne]

/-- Evaluation witness for the amended C9: both the existing-root case and
the absent-root case, over concrete filesystems. -/
theorem mountPoints_sources_spec_witness :
    (MountPoints fsPlain [] pM [pD] false).2.1 = [] ∧
    (MountPoints fsStatErr [] pM [pD] false).2.1 = [] ∧
    ((MountPoints fsRoot [] pAB [pASlash] false).2.1 =
      if LeastNonExistantRoot fsRoot pAB = [] then [] else [LeastNonExistantRoot fsRoot pAB]) :=
  ⟨(mountPoints_sources_spec fsPlain [] pM [pD] false).1 (by decide),
    (mountPoints_sources_spec fsStatErr [] pM [pD] false).2.1 StatErr.other
      (by decide) (by decide),
    (mountPoints_sources_spec fsRoot [] pAB [pASlash] false).2.2 (by decide)⟩

/-- Claim C6: a `Mount` returned by `MountPoints` has empty root-creation
fields when the mount root pre-existed the call, and the two fields are
populated together or not at all (`CreatedMountDir` is empty exactly when
`ShortestMountRoot` is). -/
theorem mount_created_fields_invariant (fs : FS) (cp cap : Path) (paths : List Path)
    (hid : Bool) (m : Mount) (h : (MountPoints fs cp cap paths hid).1 = some m) :
    ((fs.statR cap).isOk = true → m.CreatedMountDir = [] ∧ m.ShortestMountRoot = []) ∧
    (m.CreatedMountDir = [] ↔ m.ShortestMountRoot = []) := by
  unfold MountPoints at h
  cases hs : fs.statR cap with
  | ok e =>
    rw [hs] at h
    simp only [] at h
    obtain ⟨h1, h2⟩ := finishMount_some_created false cap [] _ m h
    simp only [if_false, Bool.false_eq_true] at h1 h2
    rw [h1, h2]
    exact ⟨fun _ => ⟨rfl, rfl⟩, Iff.rfl⟩
  | err se =>
    rw [hs] at h
    simp only [] at h
    have hnok : (fs.statR cap).isOk = false := by rw [hs]; rfl
    constructor
    · intro hok
      simp [StatRes.isOk] at hok
    · by_cases hse : se = StatErr.notExist
      · subst hse
        simp only [if_true] at h
        cases hmk : fs.mkdirAll cap with
        | none => rw [hmk] at h; simp at h
        | some fs2 =>
          rw [hmk] at h
          simp only [] at h
          obtain ⟨h1, h2⟩ := finishMount_some_created true cap _ _ m h
          simp only [if_true] at h1 h2
          have hcap : cap ≠ [] := mkdirAll_some_ne_nil fs fs2 cap hnok hmk
          have hsr : LeastNonExistantRoot fs cap ≠ [] := by
            rw [Ne, lnr_eq_nil_iff]
            rintro (hc | hc)
            · exact hcap hc
            · rw [hc] at hnok; exact absurd hnok (by simp)
          rw [h1, h2, if_neg hsr]
          constructor
          · intro hc; exact absurd hc hcap
          · intro hc; exact absurd hc hsr
      · rw [if_neg hse] at h
        simp at h

/-- Evaluation witness for C6 over `fsPlain` (pre-existing root, produced
mount): both root-creation fields of the returned mount are empty. -/
theorem mount_created_fields_invariant_witness :
    Mount.CreatedMountDir ⟨[], [], [⟨true, relName [] (filepathBase pD), pD,
        joinPath pM (filepathBase pD)⟩]⟩ = [] ∧
    Mount.ShortestMountRoot ⟨[], [], [⟨true, relName [] (filepathBase pD), pD,
        joinPath pM (filepathBase pD)⟩]⟩ = [] :=
  (mount_created_fields_invariant fsPlain [] pM [pD] false _ (by decide)).1 (by decide)

/-- Two source lists that drive the loop identically from any starting
filesystem give identical `MountPoints` results. -/
theorem mountPoints_congr_paths (fs : FS) (cp cap : Path) (hid : Bool) (ps1 ps2 : List Path)
    (h : ∀ fs2 : FS, mountLoop cp cap hid ps1 fs2 [] [] = mountLoop cp cap hid ps2 fs2 [] []) :
    MountPoints fs cp cap ps1 hid = MountPoints fs cp cap ps2 hid := by
  unfold MountPoints
  cases hs : fs.statR cap with
  | ok e =>
    simp only []
    rw [h fs]
  | err se =>
    simp only []
    by_cases hse : se = StatErr.notExist
    · rw [if_pos hse, if_pos hse]
      cases hmk : fs.mkdirAll cap with
      | none => rfl
      | some fs2 =>
        simp only []
        rw [h fs2]
    · rw [if_neg hse, if_neg hse]

/-- Claim C7: passing the same source path string more than once in one
`MountPoints` call yields exactly one mount point for it — occurrences
after the first are skipped silently (dropping a later duplicate does not
change the result at all), and the produced mount points carry pairwise
distinct source paths. -/
theorem mountPoints_dedup (fs : FS) (cp cap : Path) (hid : Bool) :
    (∀ (l1 l2 l3 : List Path) (x : Path),
      MountPoints fs cp cap (l1 ++ x :: l2 ++ x :: l3) hid =
        MountPoints fs cp cap (l1 ++ x :: l2 ++ l3) hid) ∧
    ∀ paths : List Path,
      ((producedPoints fs cp cap paths hid).map MountPoint.AbsPath).Nodup := by
  constructor
  · intro l1 l2 l3 x
    apply mountPoints_congr_paths
    intro fs2
    have h2 := mountLoop_dup_drop cp cap hid x l3 (l1 ++ x :: l2) fs2 [] []
      (Or.inr (by simp))
    simpa using h2
  · intro paths
    unfold producedPoints
    cases hs : fs.statR cap with
    | ok e =>
      simp only []
      exact mountLoop_nodup cp cap hid paths fs [] [] (by simp) (by simp)
    | err se =>
      by_cases hse : se = StatErr.notExist
      · subst hse
        simp only []
        simp only [if_true]
        cases hmk : fs.mkdirAll cap with
        | none => simp
        | some fs2 => exact mountLoop_nodup cp cap hid paths fs2 [] [] (by simp) (by simp)
      · simp [hse]

/-- Claim C8: with `includeHidden = false`, a source path whose base name
begins with the hidden marker `"."` never produces a mount point; with
`includeHidden = true` such a path does produce one, subject to the other
skip conditions (it is unvisited, stats successfully, and link creation
does not fail with an error unrelated to existence). -/
theorem mountPoints_hidden_filter (fs : FS) (cp cap : Path) :
    (∀ (paths : List Path) (pt : MountPoint),
      pt ∈ producedPoints fs cp cap paths false →
      List.isPrefixOf ['.'] (filepathBase pt.AbsPath) = false) ∧
    ∀ x : Path, (fs.statR cap).isOk = true → (fs.statR x).isOk = true →
      fs.symlink x (joinPath cap (filepathBase x)) ≠ .errOther →
      ∃ b, producedPoints fs cp cap [x] true =
        [⟨b, relName cp (filepathBase x), x, joinPath cap (filepathBase x)⟩] := by
  constructor
  · intro paths pt hpt
    unfold producedPoints at hpt
    cases hs : fs.statR cap with
    | ok e =>
      rw [hs] at hpt
      simp only [] at hpt
      exact mountLoop_no_hidden cp cap paths fs [] [] (by simp) pt hpt
    | err se =>
      rw [hs] at hpt
      simp only [] at hpt
      by_cases hse : se = StatErr.notExist
      · subst hse
        rw [if_pos rfl] at hpt
        cases hmk : fs.mkdirAll cap with
        | none => rw [hmk] at hpt; simp at hpt
        | some fs2 =>
          rw [hmk] at hpt
          exact mountLoop_no_hidden cp cap paths fs2 [] [] (by simp) pt hpt
      · rw [if_neg hse] at hpt
        simp at hpt
  · intro x hcap hx hlink
    unfold producedPoints
    cases hs : fs.statR cap with
    | err se => rw [hs] at hcap; simp [StatRes.isOk] at hcap
    | ok e =>
      simp only []
      obtain ⟨b, fs2, hstep⟩ := mountStep_produces cp cap fs x [] [] (by simp) hx hlink
      refine ⟨b, ?_⟩
      rw [show mountLoop cp cap true [x] fs [] [] =
        mountLoop cp cap true [] (mountStep cp cap true fs x [] []).1
          (mountStep cp cap true fs x [] []).2.1
          (mountStep cp cap true fs x [] []).2.2 from rfl]
      rw [hstep]
      simp [mountLoop]

/-- Evaluation witness for C8: no point of a hidden-filtered call has a
dotted base (applied at the point for `/d`), while `/.s` does produce a
point with `includeHidden = true`. -/
theorem mountPoints_hidden_filter_witness :
    List.isPrefixOf ['.'] (filepathBase pD) = false ∧
    (producedPoints fsPlain [] pM [pHid] true).map MountPoint.AbsPath = [pHid] := by
  constructor
  · exact (mountPoints_hidden_filter fsPlain [] pM).1 [pD]
      ⟨true, relName [] (filepathBase pD), pD, joinPath pM (filepathBase pD)⟩ (by decide)
  · obtain ⟨b, hb⟩ := (mountPoints_hidden_filter fsPlain [] pM).2 pHid
      (by decide) (by decide) (by decide)
    rw [hb]
    rfl

/-- Claim C10: `ReadIndices` ignores its path parameter and reads under the
receiver's root, while `WriteIndices` writes under its path parameter and
ignores the receiver; hence a write to `p` round-trips through a context
rooted at `p`, and a write under any other (non-aliasing) path leaves what
that context reads back unchanged. -/
theorem readWriteIndices_spec (c c2 c3 : Context) (fs : FS) (ix : IndexFile)
    (p q r1 r2 : Path) :
    (Context.ReadIndices c fs r1 = Context.ReadIndices c fs r2) ∧
    (Context.WriteIndices c2 fs ix p = Context.WriteIndices c3 fs ix p) ∧
    (c.AbsPath = p → Context.ReadIndices c (Context.WriteIndices c2 fs ix p) r1 = some ix) ∧
    (normPath (indicesAbsPath q) ≠ normPath (indicesAbsPath c.AbsPath) →
      Context.ReadIndices c (Context.WriteIndices c2 fs ix q) r1 =
        Context.ReadIndices c fs r1) := by
  refine ⟨rfl, rfl, ?_, ?_⟩
  · intro hp
    subst hp
    unfold Context.ReadIndices Context.WriteIndices FS.readFile FS.writeFile
    rw [lookup_addEntry]
    simp
  · intro hne
    unfold Context.ReadIndices Context.WriteIndices FS.readFile FS.writeFile
    rw [lookup_addEntry]
    have hb : (normPath (indicesAbsPath c.AbsPath) == normPath (indicesAbsPath q)) = false := by
      cases hbb : normPath (indicesAbsPath c.AbsPath) == normPath (indicesAbsPath q) with
      | false => rfl
      | true => exact absurd (eq_of_beq hbb).symm hne
    rw [hb]
    simp

/-- Evaluation witness for C10: a round trip through `/w` and a frame write
under `/m`, over the empty filesystem. -/
theorem readWriteIndices_spec_witness :
    Context.ReadIndices ctxW (Context.WriteIndices ctxW (⟨[], [], [], []⟩ : FS) ixW pW) pD =
      some ixW ∧
    Context.ReadIndices ctxW (Context.WriteIndices ctxW (⟨[], [], [], []⟩ : FS) ixW pM) pD =
      Context.ReadIndices ctxW (⟨[], [], [], []⟩ : FS) pD :=
  ⟨(readWriteIndices_spec ctxW ctxW ctxW ⟨[], [], [], []⟩ ixW pW pM pD pD).2.2.1 (by decide),
    (readWriteIndices_spec ctxW ctxW ctxW ⟨[], [], [], []⟩ ixW pW pM pD pD).2.2.2 (by decide)⟩

/-- Claim C5 / code observation: when the stat of the marker path fails with
an error that indicates neither existence nor non-existence, `Initialize`
executes a bare `return` without assigning the named result `err`, so the
caller receives `firstInit = false`, no context AND no error — the stat
error is swallowed, not propagated, though nothing is created. This
evaluation exhibits the divergence from the specified propagation. -/
theorem initialize_swallows_other_stat_error :
    Initialize fsInitErr pW = (gdPath pW, false, none, none, fsInitErr) := by decide

end Drive
